import Mathlib

/-!
Verification of the AOC2025 repository's specification against a shallow
embedding of its Python sources.

Each day's relevant functions are translated into Lean definitions inside a
namespace named after the day's folder.  Decimal strings are modelled as lists
of digits (most significant first), grids as association lists from integer
coordinates to characters, and the stateful loops as explicit state-passing
recursion (with fuel where the Python loop is not structurally terminating).
-/

namespace Day2

/-- Little-endian decimal digits, computed with explicit fuel so that the
kernel can evaluate concrete instances. -/
def decDigitsFuel : ℕ → ℕ → List ℕ
  | 0, _ => []
  | fuel + 1, n => if n = 0 then [] else n % 10 :: decDigitsFuel fuel (n / 10)

/-- Decimal digit string of `n`, most significant digit first: the model of
`str(num)` from the sources, as a list of decimal digits. -/
def decStr (n : ℕ) : List ℕ := (decDigitsFuel n n).reverse

theorem decDigitsFuel_eq (fuel n : ℕ) (h : n ≤ fuel) :
    decDigitsFuel fuel n = Nat.digits 10 n := by
  induction fuel generalizing n with
  | zero =>
    have : n = 0 := Nat.le_zero.mp h
    subst this
    simp [decDigitsFuel]
  | succ fuel ih =>
    by_cases hn : n = 0
    · subst hn
      simp [decDigitsFuel]
    · rw [decDigitsFuel, if_neg hn, Nat.digits_def' (by norm_num) (Nat.pos_of_ne_zero hn),
        ih (n / 10) (by omega)]

theorem decStr_eq (n : ℕ) : decStr n = (Nat.digits 10 n).reverse := by
  unfold decStr
  rw [decDigitsFuel_eq n n le_rfl]

/-- Membership test of `invalid_finder` (src/day02/main.py, lines 15-25):
strip leading zeros, split the string at `len(str_num) // 2`, and compare the
two halves. -/
def invalidFinderTest (n : ℕ) : Bool :=
  let str_num := (decStr n).dropWhile (· = 0)
  let midpoint := str_num.length / 2
  let first_half := str_num.take midpoint
  let second_half := str_num.drop midpoint
  decide (first_half = second_half)

/-- `invalid_finder(start, end)` (src/day02/main.py): the ids in
`range(start, end + 1)` passing the halves test, in increasing order. -/
def invalid_finder (start stop : ℕ) : List ℕ :=
  (List.range' start (stop + 1 - start)).filter invalidFinderTest

/-- Denotation of `re.fullmatch(r"(.+?)\1+$", s)` as used by `pattern_finder`
(src/day02/main.py, line 35): the whole string is some nonempty block written
at least twice in a row.  (The lazy quantifier and the `$` anchor do not
change which strings match.) -/
def RegexRepeats (s : List ℕ) : Prop :=
  ∃ g k, g ≠ [] ∧ 2 ≤ k ∧ s = (List.replicate k g).flatten

/-- Membership test of `pattern_finder` (src/day02/main.py, lines 32-37):
the regex is run on the digit string stripped of leading zeros. -/
def patternFinderTest (n : ℕ) : Prop :=
  RegexRepeats ((decStr n).dropWhile (· = 0))

/-- `is_invalid_part1` (src/day2/agent.py, lines 68-109): reject strings of
length below two or of odd length, then compare the two halves. -/
def is_invalid_part1 (product_id : ℕ) : Bool :=
  let id_str := decStr product_id
  let length := id_str.length
  if length < 2 then false
  else if length % 2 ≠ 0 then false
  else decide (id_str.take (length / 2) = id_str.drop (length / 2))

/-- `is_invalid_part2` (src/day2/agent.py, lines 112-160): try each sequence
length in `range(1, length // 2 + 1)`; accept when it divides the length, the
repetition count is at least two, and the prefix repeated that many times
reconstructs the string. -/
def is_invalid_part2 (product_id : ℕ) : Bool :=
  let id_str := decStr product_id
  let length := id_str.length
  if length < 2 then false
  else (List.range' 1 (length / 2)).any fun seq_length =>
    if length % seq_length ≠ 0 then false
    else if 2 ≤ length / seq_length then
      decide ((List.replicate (length / seq_length) (id_str.take seq_length)).flatten = id_str)
    else false

/-- The specification's "general repetition" property for the digit string of
`n`: some divisor `d` of the length, with `d` below the length, such that the
string is its own first `d` characters repeated `length / d` times. -/
def SpecRepeats (n : ℕ) : Prop :=
  let s := decStr n
  ∃ d, d ∣ s.length ∧ d < s.length ∧
    s = (List.replicate (s.length / d) (s.take d)).flatten

theorem decStr_eq_nil_iff {n : ℕ} : decStr n = [] ↔ n = 0 := by
  rw [decStr_eq, List.reverse_eq_nil_iff]
  constructor
  · intro h
    by_contra hn
    exact Nat.digits_ne_nil_iff_ne_zero.mpr hn h
  · intro h
    subst h
    exact Nat.digits_zero 10

theorem decStr_head_ne_zero {n : ℕ} (hn : n ≠ 0) (a : ℕ) (l : List ℕ)
    (h : decStr n = a :: l) : a ≠ 0 := by
  have hne : Nat.digits 10 n ≠ [] := Nat.digits_ne_nil_iff_ne_zero.mpr hn
  have h1 : (Nat.digits 10 n).reverse.head? = some a := by
    rw [← decStr_eq, h]; rfl
  rw [List.head?_reverse, List.getLast?_eq_getLast _ hne] at h1
  have h2 : (Nat.digits 10 n).getLast hne ≠ 0 := Nat.getLast_digit_ne_zero 10 hn
  intro ha
  exact h2 (by rw [Option.some_inj.mp h1, ha])

theorem dropWhile_decStr {n : ℕ} (hn : 0 < n) :
    (decStr n).dropWhile (· = 0) = decStr n := by
  cases h : decStr n with
  | nil => rfl
  | cons a l =>
    have ha : a ≠ 0 := decStr_head_ne_zero (Nat.pos_iff_ne_zero.mp hn) a l h
    rw [List.dropWhile_cons, if_neg (by simpa using ha)]

theorem decStr_length_pos {n : ℕ} (hn : 0 < n) : 0 < (decStr n).length := by
  rcases Nat.eq_zero_or_pos (decStr n).length with h | h
  · exfalso
    have h0 := decStr_eq_nil_iff.mp (List.length_eq_zero.mp h)
    omega
  · exact h

theorem halves_eq_length_even {s : List ℕ}
    (h : s.take (s.length / 2) = s.drop (s.length / 2)) : s.length % 2 = 0 := by
  have hlen := congrArg List.length h
  rw [List.length_take, List.length_drop] at hlen
  omega

/-- The halves test of `invalid_finder`, characterised without the leading-zero
strip (which is the identity on positive inputs). -/
theorem invalidFinderTest_iff {n : ℕ} (hn : 0 < n) :
    (invalidFinderTest n = true ↔
      (decStr n).length % 2 = 0 ∧
        (decStr n).take ((decStr n).length / 2) = (decStr n).drop ((decStr n).length / 2)) := by
  unfold invalidFinderTest
  rw [dropWhile_decStr hn, decide_eq_true_iff]
  exact ⟨fun h => ⟨halves_eq_length_even h, h⟩, fun h => h.2⟩

theorem is_invalid_part1_iff {n : ℕ} (hn : 0 < n) :
    (is_invalid_part1 n = true ↔
      (decStr n).length % 2 = 0 ∧
        (decStr n).take ((decStr n).length / 2) = (decStr n).drop ((decStr n).length / 2)) := by
  have hlen := decStr_length_pos hn
  unfold is_invalid_part1
  by_cases h2 : (decStr n).length < 2
  · rw [if_pos h2]
    constructor
    · intro h
      simp at h
    · rintro ⟨he, -⟩
      omega
  · rw [if_neg h2]
    by_cases hodd : (decStr n).length % 2 ≠ 0
    · rw [if_pos hodd]
      constructor
      · intro h
        simp at h
      · rintro ⟨he, -⟩
        omega
    · rw [if_neg hodd, decide_eq_true_iff]
      push_neg at hodd
      exact ⟨fun h => ⟨hodd, h⟩, fun h => h.2⟩

theorem part1_tests_agree {n : ℕ} (hn : 0 < n) :
    invalidFinderTest n = is_invalid_part1 n := by
  have h1 := invalidFinderTest_iff hn
  have h2 := is_invalid_part1_iff hn
  rw [Bool.eq_iff_iff]
  exact h1.trans h2.symm

theorem length_flatten_replicate (k : ℕ) (g : List ℕ) :
    (List.replicate k g).flatten.length = k * g.length := by
  simp [List.length_flatten, List.map_replicate, List.sum_replicate, smul_eq_mul]

theorem dvd_pos_of_lt {d L : ℕ} (hdvd : d ∣ L) (hlt : d < L) : 0 < d := by
  rcases Nat.eq_zero_or_pos d with rfl | h
  · have : L = 0 := Nat.eq_zero_of_zero_dvd hdvd
    omega
  · exact h

theorem two_le_div_of_dvd_of_lt {d L : ℕ} (hdvd : d ∣ L) (hlt : d < L) : 2 ≤ L / d := by
  have hd := dvd_pos_of_lt hdvd hlt
  obtain ⟨k, rfl⟩ := hdvd
  rw [Nat.mul_div_cancel_left _ hd]
  by_contra hcon
  push_neg at hcon
  interval_cases k <;> omega

theorem lt_of_dvd_of_two_le {d L : ℕ} (hd : 0 < d) (hdvd : d ∣ L) (hk : 2 ≤ L / d) :
    d < L := by
  obtain ⟨k, rfl⟩ := hdvd
  rw [Nat.mul_div_cancel_left _ hd] at hk
  obtain ⟨k', rfl⟩ : ∃ k', k = k' + 2 := ⟨k - 2, by omega⟩
  have hexp : d * (k' + 2) = d * k' + 2 * d := by ring
  omega

/-- The language of the regex `(.+?)\1+` (anchored on both sides) is exactly
the strings matching the specification's divisor description. -/
theorem regexRepeats_iff (s : List ℕ) :
    RegexRepeats s ↔
      ∃ d, d ∣ s.length ∧ d < s.length ∧
        s = (List.replicate (s.length / d) (s.take d)).flatten := by
  constructor
  · rintro ⟨g, k, hg, hk, hs⟩
    have hgl : 0 < g.length := List.length_pos.mpr hg
    have hL : s.length = k * g.length := by
      rw [hs, length_flatten_replicate]
    have h2g : 2 * g.length ≤ k * g.length := Nat.mul_le_mul_right _ hk
    refine ⟨g.length, ⟨k, by rw [hL, mul_comm]⟩, by omega, ?_⟩
    obtain ⟨k', rfl⟩ : ∃ k', k = k' + 1 := ⟨k - 1, by omega⟩
    have htake : s.take g.length = g := by
      rw [hs, List.replicate_succ, List.flatten_cons, List.take_left]
    have hdiv : s.length / g.length = k' + 1 := by
      rw [hL]
      exact Nat.mul_div_cancel _ hgl
    rw [htake, hdiv]
    exact hs
  · rintro ⟨d, hdvd, hlt, hs⟩
    have hd : 0 < d := dvd_pos_of_lt hdvd hlt
    have hk2 : 2 ≤ s.length / d := two_le_div_of_dvd_of_lt hdvd hlt
    refine ⟨s.take d, s.length / d, ?_, hk2, hs⟩
    have hlen : (s.take d).length = d := by
      rw [List.length_take]
      omega
    intro hnil
    rw [hnil] at hlen
    simp at hlen
    omega

theorem is_invalid_part2_iff {n : ℕ} (hn : 0 < n) :
    (is_invalid_part2 n = true ↔ SpecRepeats n) := by
  have hlen := decStr_length_pos hn
  unfold is_invalid_part2 SpecRepeats
  by_cases h2 : (decStr n).length < 2
  · rw [if_pos h2]
    constructor
    · intro h
      simp at h
    · rintro ⟨d, hdvd, hlt, -⟩
      have hL : (decStr n).length = 1 := by omega
      rw [hL] at hdvd hlt
      have hd1 : d = 1 := Nat.dvd_one.mp hdvd
      omega
  · rw [if_neg h2, List.any_eq_true]
    constructor
    · rintro ⟨d, hmem, hf⟩
      have hd1 : 1 ≤ d := (List.mem_range'_1.mp hmem).1
      by_cases hmod : (decStr n).length % d = 0
      · rw [if_neg (by omega)] at hf
        by_cases hk : 2 ≤ (decStr n).length / d
        · rw [if_pos hk, decide_eq_true_iff] at hf
          have hdvd := Nat.dvd_of_mod_eq_zero hmod
          exact ⟨d, hdvd, lt_of_dvd_of_two_le (by omega) hdvd hk, hf.symm⟩
        · rw [if_neg hk] at hf
          simp at hf
      · rw [if_pos hmod] at hf
        simp at hf
    · rintro ⟨d, hdvd, hlt, hs⟩
      have hd : 0 < d := dvd_pos_of_lt hdvd hlt
      have hk2 : 2 ≤ (decStr n).length / d := two_le_div_of_dvd_of_lt hdvd hlt
      have hhalf : d ≤ (decStr n).length / 2 := by
        rw [Nat.le_div_iff_mul_le (by norm_num : (0 : ℕ) < 2)]
        obtain ⟨k, hk⟩ := hdvd
        rw [hk, Nat.mul_div_cancel_left _ hd] at hk2
        have h2k : d * 2 ≤ d * k := Nat.mul_le_mul_left _ hk2
        omega
      refine ⟨d, List.mem_range'_1.mpr ⟨hd, by omega⟩, ?_⟩
      rw [if_neg (by simp [Nat.mod_eq_zero_of_dvd hdvd]), if_pos hk2, decide_eq_true_iff]
      exact hs.symm

theorem patternFinderTest_iff {n : ℕ} (hn : 0 < n) :
    (patternFinderTest n ↔ SpecRepeats n) := by
  unfold patternFinderTest
  rw [dropWhile_decStr hn]
  exact regexRepeats_iff (decStr n)

/-- C3: for every positive integer `n`, the "exact double" membership test of
`invalid_finder` (src/day02/main.py) and `is_invalid_part1`
(src/day2/agent.py) hold iff the decimal string of `n` has even length `L`
and its first `L / 2` digits equal its last `L / 2` digits; in particular
odd-length strings and single-digit strings never match. -/
theorem claim_C3 (n : ℕ) (hn : 0 < n) :
    (invalidFinderTest n = true ↔
      (decStr n).length % 2 = 0 ∧
        (decStr n).take ((decStr n).length / 2) = (decStr n).drop ((decStr n).length / 2)) ∧
    (is_invalid_part1 n = true ↔
      (decStr n).length % 2 = 0 ∧
        (decStr n).take ((decStr n).length / 2) = (decStr n).drop ((decStr n).length / 2)) ∧
    ((decStr n).length % 2 = 1 →
      invalidFinderTest n = false ∧ is_invalid_part1 n = false) ∧
    ((decStr n).length = 1 →
      invalidFinderTest n = false ∧ is_invalid_part1 n = false) := by
  have hodd_case : (decStr n).length % 2 = 1 →
      invalidFinderTest n = false ∧ is_invalid_part1 n = false := by
    intro hodd
    constructor
    · cases hb : invalidFinderTest n
      · rfl
      · have heven := ((invalidFinderTest_iff hn).mp hb).1
        omega
    · cases hb : is_invalid_part1 n
      · rfl
      · have heven := ((is_invalid_part1_iff hn).mp hb).1
        omega
  refine ⟨invalidFinderTest_iff hn, is_invalid_part1_iff hn, hodd_case, ?_⟩
  intro h1
  exact hodd_case (by omega)

/-- Witness for C3: `1010` passes the exact-double test; `101`, of odd
length, fails both implementations. -/
theorem claim_C3_witness :
    invalidFinderTest 1010 = true ∧
      invalidFinderTest 101 = false ∧ is_invalid_part1 101 = false :=
  ⟨(claim_C3 1010 (by decide)).1.mpr (by decide),
    (claim_C3 101 (by decide)).2.2.1 (by decide)⟩

/-- C4: for every positive integer `n`, the regex membership test of
`pattern_finder` (src/day02/main.py) and the divisor loop `is_invalid_part2`
(src/day2/agent.py) hold iff some divisor `d` of the digit-string length,
with `d` below the length, makes the string equal to its first `d`
characters repeated `length / d` times. -/
theorem claim_C4 (n : ℕ) (hn : 0 < n) :
    (patternFinderTest n ↔ SpecRepeats n) ∧
      (is_invalid_part2 n = true ↔ SpecRepeats n) :=
  ⟨patternFinderTest_iff hn, is_invalid_part2_iff hn⟩

/-- Witness for C4: `123123123` repeats its first three digits three times
(`d = 3`), and `111` repeats its first digit three times (`d = 1`). -/
theorem claim_C4_witness :
    is_invalid_part2 123123123 = true ∧ patternFinderTest 111 :=
  ⟨(claim_C4 123123123 (by decide)).2.mpr ⟨3, by decide, by decide, by decide⟩,
    (claim_C4 111 (by decide)).1.mpr ⟨1, by decide, by decide, by decide⟩⟩

/-- C10: for every positive integer `n`, the two independent day-2
implementations agree: the `invalid_finder` membership test (including its
strip of leading zeros) coincides with `is_invalid_part1`, and the
`pattern_finder` regex test coincides with `is_invalid_part2`. -/
theorem claim_C10 (n : ℕ) (hn : 0 < n) :
    invalidFinderTest n = is_invalid_part1 n ∧
      (patternFinderTest n ↔ is_invalid_part2 n = true) :=
  ⟨part1_tests_agree hn,
    (patternFinderTest_iff hn).trans (is_invalid_part2_iff hn).symm⟩

/-- Witness for C10: both agreements evaluated at concrete inputs. -/
theorem claim_C10_witness :
    invalidFinderTest 1010 = is_invalid_part1 1010 ∧ is_invalid_part2 111 = true :=
  ⟨(claim_C10 1010 (by decide)).1,
    (claim_C10 111 (by decide)).2.mp ⟨[1], 3, by decide, by decide, by decide⟩⟩

end Day2

namespace Day4

/-- Grid coordinates `(y, x)` as used by src/day4/main.py. -/
abbrev Pos := Int × Int

/-- The Python `grid_map` dictionary: an association list from coordinates to
characters.  Grids read from the input file have pairwise distinct keys. -/
abbrev Grid := List (Pos × Char)

/-- The eight neighbour offsets `square` (src/day4/main.py, line 12),
read as `(dy, dx)` pairs. -/
def square : List (Int × Int) :=
  [(-1, -1), (0, -1), (1, -1), (-1, 0), (1, 0), (-1, 1), (0, 1), (1, 1)]

/-- The `at_count` loop of `roll_access` (src/day4/main.py, lines 26-32):
scan the eight neighbours in order, counting occupied ones, and stop counting
once the count has reached four (the Python `break`). -/
def atCount (g : Grid) (p : Pos) : ℕ :=
  square.foldl
    (fun at_count dydx =>
      if 4 ≤ at_count then at_count
      else if List.lookup (p.1 + dydx.1, p.2 + dydx.2) g = some '@' then at_count + 1
      else at_count)
    0

/-- `roll_access(grid_map)` (src/day4/main.py, lines 20-35): the occupied
cells whose neighbour count stayed below four, mapped to `'.'`, in grid
(dictionary insertion) order. -/
def roll_access (g : Grid) : List (Pos × Char) :=
  (g.filter fun pc => pc.2 == '@' && decide (atCount g pc.1 < 4)).map fun pc => (pc.1, '.')

/-- `grid_map.update(rolls)` (src/day4/main.py, line 56): every key present
in `rolls` takes its new value, the others keep theirs.  (`roll_access` only
ever produces keys already present in the grid, so no new entries arise.) -/
def gridUpdate (g : Grid) (rolls : List (Pos × Char)) : Grid :=
  g.map fun pc =>
    match List.lookup pc.1 rolls with
    | some c => (pc.1, c)
    | none => pc

/-- Number of occupied cells of the grid. -/
def occupiedCount (g : Grid) : ℕ := g.countP fun pc => pc.2 == '@'

/-- The Part 2 loop of `main` (src/day4/main.py, lines 49-57): repeatedly
clear `roll_access` cells until a round clears nothing, accumulating the
count of cleared cells.  Explicit fuel models the unbounded `while True`. -/
def runRounds : ℕ → Grid → Option (ℕ × Grid)
  | 0, _ => none
  | fuel + 1, g =>
    let rolls := roll_access g
    if rolls.length = 0 then some (0, g)
    else
      match runRounds fuel (gridUpdate g rolls) with
      | none => none
      | some (total, g') => some (rolls.length + total, g')

/-- The specification's neighbour count: the plain number of occupied cells
among the eight neighbours, with no early stop. -/
def neighborCount (g : Grid) (p : Pos) : ℕ :=
  (square.filter fun dydx => List.lookup (p.1 + dydx.1, p.2 + dydx.2) g = some '@').length

theorem atCount_eq_min (g : Grid) (p : Pos) :
    atCount g p = min (neighborCount g p) 4 := by
  suffices h : ∀ (l : List (Int × Int)) (acc : ℕ), acc ≤ 4 →
      l.foldl
        (fun at_count dydx =>
          if 4 ≤ at_count then at_count
          else if List.lookup (p.1 + dydx.1, p.2 + dydx.2) g = some '@' then at_count + 1
          else at_count)
        acc =
      min (acc + (l.filter fun dydx =>
        List.lookup (p.1 + dydx.1, p.2 + dydx.2) g = some '@').length) 4 by
    have h0 := h square 0 (by omega)
    simpa [atCount, neighborCount] using h0
  intro l
  induction l with
  | nil =>
    intro acc hacc
    simp
    omega
  | cons o l ih =>
    intro acc hacc
    rw [List.foldl_cons, List.filter_cons]
    by_cases h4 : 4 ≤ acc
    · have hacc4 : acc = 4 := by omega
      subst hacc4
      rw [if_pos h4, ih 4 (by omega)]
      by_cases ho : List.lookup (p.1 + o.1, p.2 + o.2) g = some '@'
      · simp [ho]
      · simp [ho]
    · rw [if_neg h4]
      by_cases ho : List.lookup (p.1 + o.1, p.2 + o.2) g = some '@'
      · rw [if_pos ho, ih (acc + 1) (by omega)]
        simp [ho]
        omega
      · rw [if_neg ho, ih acc (by omega)]
        simp [ho]

theorem atCount_lt_iff (g : Grid) (p : Pos) :
    atCount g p < 4 ↔ neighborCount g p < 4 := by
  rw [atCount_eq_min]
  omega

theorem lookup_cons (p q : Pos) (c : Char) (l : List (Pos × Char)) :
    List.lookup p ((q, c) :: l) = if p = q then some c else List.lookup p l := by
  cases h : p == q
  · have hne : p ≠ q := by simpa using h
    simp [List.lookup, h, hne]
  · have heq : p = q := by simpa using h
    simp [List.lookup, h, heq]

theorem lookup_eq_none_iff (p : Pos) (l : List (Pos × Char)) :
    List.lookup p l = none ↔ p ∉ l.map Prod.fst := by
  induction l with
  | nil => simp
  | cons qc l ih =>
    obtain ⟨q, c⟩ := qc
    rw [lookup_cons]
    by_cases h : p = q <;> simp [h, ih]

theorem lookup_eq_some_iff {l : List (Pos × Char)} (hnd : (l.map Prod.fst).Nodup)
    {p : Pos} {c : Char} : List.lookup p l = some c ↔ (p, c) ∈ l := by
  induction l with
  | nil => simp
  | cons qc l ih =>
    obtain ⟨q, d⟩ := qc
    rw [List.map_cons, List.nodup_cons] at hnd
    rw [lookup_cons]
    by_cases h : p = q
    · subst h
      rw [if_pos rfl]
      constructor
      · intro hc
        have : d = c := by simpa using hc
        subst this
        exact List.mem_cons_self _ _
      · intro hmem
        rcases List.mem_cons.mp hmem with h1 | h1
        · have : c = d := (Prod.ext_iff.mp h1).2
          simp [this]
        · exact absurd (List.mem_map.mpr ⟨(p, c), h1, rfl⟩) hnd.1
    · rw [if_neg h, ih hnd.2]
      constructor
      · exact fun hmem => List.mem_cons_of_mem _ hmem
      · intro hmem
        rcases List.mem_cons.mp hmem with h1 | h1
        · exact absurd (Prod.ext_iff.mp h1).1 h
        · exact h1

theorem mem_roll_access {g : Grid} {p : Pos} {c : Char} :
    (p, c) ∈ roll_access g ↔ c = '.' ∧ (p, '@') ∈ g ∧ atCount g p < 4 := by
  unfold roll_access
  constructor
  · intro h
    obtain ⟨pc, hmem, hf⟩ := List.mem_map.mp h
    obtain ⟨hg, hq⟩ := List.mem_filter.mp hmem
    have hp : pc.1 = p := (Prod.ext_iff.mp hf).1
    have hc : c = '.' := ((Prod.ext_iff.mp hf).2).symm
    have h2 : pc.2 = '@' ∧ atCount g pc.1 < 4 := by simpa using hq
    refine ⟨hc, ?_, hp ▸ h2.2⟩
    have hpc : pc = (p, '@') := by
      rw [← hp, ← h2.1]
    exact hpc ▸ hg
  · rintro ⟨rfl, hg, hcnt⟩
    exact List.mem_map.mpr ⟨(p, '@'), List.mem_filter.mpr ⟨hg, by simp [hcnt]⟩, rfl⟩

theorem roll_access_keys_nodup {g : Grid} (hnd : (g.map Prod.fst).Nodup) :
    ((roll_access g).map Prod.fst).Nodup := by
  unfold roll_access
  rw [List.map_map]
  have hcomp : (Prod.fst ∘ fun pc : Pos × Char => (pc.1, '.')) = Prod.fst := rfl
  rw [hcomp]
  exact ((List.filter_sublist g).map Prod.fst).nodup hnd

/-- Keys of a g-entry determine the entry under key nodup. -/
theorem mem_eq_of_nodup {g : Grid} (hnd : (g.map Prod.fst).Nodup)
    {p : Pos} {a b : Char} (ha : (p, a) ∈ g) (hb : (p, b) ∈ g) : a = b := by
  have h1 := (lookup_eq_some_iff hnd).mpr ha
  have h2 := (lookup_eq_some_iff hnd).mpr hb
  rw [h1] at h2
  exact Option.some_inj.mp h2

theorem gridUpdate_keys (g : Grid) (rolls : List (Pos × Char)) :
    (gridUpdate g rolls).map Prod.fst = g.map Prod.fst := by
  unfold gridUpdate
  rw [List.map_map]
  apply List.map_congr_left
  intro pc _
  simp only [Function.comp_apply]
  cases h : List.lookup pc.1 rolls <;> simp [h]

theorem occupied_update (g : Grid) (rolls : List (Pos × Char))
    (h : ∀ pc ∈ g,
      (List.lookup pc.1 rolls = some '.' ∧ pc.2 = '@') ∨ List.lookup pc.1 rolls = none) :
    occupiedCount (gridUpdate g rolls) +
        (g.countP fun pc => (List.lookup pc.1 rolls).isSome) =
      occupiedCount g := by
  induction g with
  | nil => rfl
  | cons pc g ih =>
    have hpc := h pc (List.mem_cons_self _ _)
    have hrest := fun x hx => h x (List.mem_cons_of_mem _ hx)
    have ih' := ih hrest
    unfold occupiedCount gridUpdate at ih' ⊢
    rw [List.map_cons]
    simp only [List.countP_cons, List.countP_map] at ih' ⊢
    rcases hpc with ⟨hlook, hat⟩ | hlook
    · rw [hlook]
      simp [hat]
      omega
    · rw [hlook]
      simp
      omega

theorem roll_lookup_cases {g : Grid} (hnd : (g.map Prod.fst).Nodup) :
    ∀ pc ∈ g,
      (List.lookup pc.1 (roll_access g) = some '.' ∧ pc.2 = '@') ∨
        List.lookup pc.1 (roll_access g) = none := by
  intro pc hpc
  cases hopt : List.lookup pc.1 (roll_access g) with
  | none => exact Or.inr rfl
  | some c =>
    left
    have hmem := (lookup_eq_some_iff (roll_access_keys_nodup hnd)).mp hopt
    obtain ⟨hc, hat, -⟩ := mem_roll_access.mp hmem
    subst hc
    refine ⟨rfl, ?_⟩
    exact mem_eq_of_nodup hnd hpc hat

theorem countP_lookup_roll {g : Grid} (hnd : (g.map Prod.fst).Nodup) :
    (g.countP fun pc => (List.lookup pc.1 (roll_access g)).isSome) =
      (roll_access g).length := by
  have hlen : (roll_access g).length =
      g.countP fun pc => pc.2 == '@' && decide (atCount g pc.1 < 4) := by
    unfold roll_access
    rw [List.length_map, ← List.countP_eq_length_filter]
  rw [hlen]
  apply List.countP_congr
  intro pc hpc
  rw [Bool.eq_iff_iff]
  constructor
  · intro hs
    cases hopt : List.lookup pc.1 (roll_access g) with
    | none =>
      rw [hopt] at hs
      simp at hs
    | some c =>
      have hmem := (lookup_eq_some_iff (roll_access_keys_nodup hnd)).mp hopt
      obtain ⟨-, hat, hcnt⟩ := mem_roll_access.mp hmem
      have : pc.2 = '@' := mem_eq_of_nodup hnd hpc hat
      simp [this, hcnt]
  · intro hb
    have hb' : pc.2 = '@' ∧ atCount g pc.1 < 4 := by simpa using hb
    have hmem : (pc.1, '.') ∈ roll_access g := by
      refine mem_roll_access.mpr ⟨rfl, ?_, hb'.2⟩
      have hpe : pc = (pc.1, '@') := by
        rw [← hb'.1]
      exact hpe ▸ hpc
    cases hopt : List.lookup pc.1 (roll_access g) with
    | some c => simp
    | none =>
      exfalso
      exact (lookup_eq_none_iff _ _).mp hopt (List.mem_map.mpr ⟨(pc.1, '.'), hmem, rfl⟩)

/-- One round: the occupied count drops by exactly the number of cleared
cells. -/
theorem occupied_update_roll {g : Grid} (hnd : (g.map Prod.fst).Nodup) :
    occupiedCount (gridUpdate g (roll_access g)) + (roll_access g).length =
      occupiedCount g := by
  rw [← countP_lookup_roll hnd]
  exact occupied_update g (roll_access g) (roll_lookup_cases hnd)

theorem runRounds_sound :
    ∀ (fuel : ℕ) (g : Grid) (total : ℕ) (g' : Grid), (g.map Prod.fst).Nodup →
      runRounds fuel g = some (total, g') →
      roll_access g' = [] ∧ total + occupiedCount g' = occupiedCount g := by
  intro fuel
  induction fuel with
  | zero =>
    intro g total g' _ h
    simp [runRounds] at h
  | succ fuel ih =>
    intro g total g' hnd h
    rw [show runRounds (fuel + 1) g =
        (if (roll_access g).length = 0 then some (0, g)
         else
           match runRounds fuel (gridUpdate g (roll_access g)) with
           | none => none
           | some (t, h2) => some ((roll_access g).length + t, h2)) from rfl] at h
    by_cases hz : (roll_access g).length = 0
    · rw [if_pos hz] at h
      have hinj := Option.some_inj.mp h
      have h1 : (0 : ℕ) = total := (Prod.ext_iff.mp hinj).1
      have h2 : g = g' := (Prod.ext_iff.mp hinj).2
      subst h2
      exact ⟨List.length_eq_zero.mp hz, by omega⟩
    · rw [if_neg hz] at h
      cases hrec : runRounds fuel (gridUpdate g (roll_access g)) with
      | none =>
        rw [hrec] at h
        simp at h
      | some r =>
        obtain ⟨t', g2⟩ := r
        rw [hrec] at h
        simp only at h
        have hinj := Option.some_inj.mp h
        have htot : (roll_access g).length + t' = total := (Prod.ext_iff.mp hinj).1
        have hg2 : g2 = g' := (Prod.ext_iff.mp hinj).2
        have hnd' : ((gridUpdate g (roll_access g)).map Prod.fst).Nodup := by
          rw [gridUpdate_keys]
          exact hnd
        obtain ⟨hfix, heq⟩ := ih (gridUpdate g (roll_access g)) t' g2 hnd' hrec
        have hupd := occupied_update_roll hnd
        rw [hg2] at hfix heq
        exact ⟨hfix, by omega⟩

theorem runRounds_total :
    ∀ (fuel : ℕ) (g : Grid), (g.map Prod.fst).Nodup → occupiedCount g < fuel →
      ∃ total g', runRounds fuel g = some (total, g') := by
  intro fuel
  induction fuel with
  | zero =>
    intro g _ h
    omega
  | succ fuel ih =>
    intro g hnd hlt
    by_cases hz : (roll_access g).length = 0
    · refine ⟨0, g, ?_⟩
      unfold runRounds
      rw [if_pos hz]
    · have hnd' : ((gridUpdate g (roll_access g)).map Prod.fst).Nodup := by
        rw [gridUpdate_keys]
        exact hnd
      have hupd := occupied_update_roll hnd
      have hlt' : occupiedCount (gridUpdate g (roll_access g)) < fuel := by omega
      obtain ⟨t', g', hrec⟩ := ih (gridUpdate g (roll_access g)) hnd' hlt'
      refine ⟨(roll_access g).length + t', g', ?_⟩
      unfold runRounds
      rw [if_neg hz, hrec]

/-- C5: each round clears exactly the occupied cells whose 8-neighbourhood
holds fewer than four occupied cells, judged against the grid state at the
start of the round (all clears are applied only after the full scan); the
round-1 clear count equals the number of such cells, and when the loop
reaches its fixed point the total cleared equals the drop in occupied
cells. -/
theorem claim_C5 (g : Grid) (hnd : (g.map Prod.fst).Nodup) :
    (∀ p c, (p, c) ∈ roll_access g ↔
        c = '.' ∧ List.lookup p g = some '@' ∧ neighborCount g p < 4) ∧
    ((roll_access g).length =
        g.countP fun pc => decide (pc.2 = '@') && decide (neighborCount g pc.1 < 4)) ∧
    (∀ fuel total g', runRounds fuel g = some (total, g') →
        roll_access g' = [] ∧ total + occupiedCount g' = occupiedCount g) := by
  refine ⟨?_, ?_, fun fuel total g' h => runRounds_sound fuel g total g' hnd h⟩
  · intro p c
    rw [mem_roll_access, lookup_eq_some_iff hnd, atCount_lt_iff]
  · have hlen : (roll_access g).length =
        g.countP fun pc => pc.2 == '@' && decide (atCount g pc.1 < 4) := by
      unfold roll_access
      rw [List.length_map, ← List.countP_eq_length_filter]
    rw [hlen]
    apply List.countP_congr
    intro pc hpc
    rw [Bool.eq_iff_iff]
    simp [atCount_lt_iff]

/-- Witness for C5 on a two-cell grid: both cells clear in round one and the
loop stops with the occupied count dropping from two to zero. -/
theorem claim_C5_witness :
    roll_access [(((0 : ℤ), (0 : ℤ)), '.'), (((0 : ℤ), (1 : ℤ)), '.')] = [] ∧
      2 + occupiedCount [(((0 : ℤ), (0 : ℤ)), '.'), (((0 : ℤ), (1 : ℤ)), '.')] =
        occupiedCount [(((0 : ℤ), (0 : ℤ)), '@'), (((0 : ℤ), (1 : ℤ)), '@')] :=
  (claim_C5 [(((0 : ℤ), (0 : ℤ)), '@'), (((0 : ℤ), (1 : ℤ)), '@')] (by decide)).2.2
    3 2 [(((0 : ℤ), (0 : ℤ)), '.'), (((0 : ℤ), (1 : ℤ)), '.')] (by decide)

/-- C6: the clearing loop terminates: the occupied count never increases
across a round, strictly decreases in every round that clears something, and
fuel `occupiedCount g + 1` already reaches the fixed point where a round
clears nothing. -/
theorem claim_C6 (g : Grid) (hnd : (g.map Prod.fst).Nodup) :
    occupiedCount (gridUpdate g (roll_access g)) ≤ occupiedCount g ∧
    (roll_access g ≠ [] →
      occupiedCount (gridUpdate g (roll_access g)) < occupiedCount g) ∧
    ∃ total g', runRounds (occupiedCount g + 1) g = some (total, g') ∧
      roll_access g' = [] := by
  have hupd := occupied_update_roll hnd
  refine ⟨by omega, ?_, ?_⟩
  · intro hne
    have : (roll_access g).length ≠ 0 := by
      intro h0
      exact hne (List.length_eq_zero.mp h0)
    omega
  · obtain ⟨total, g', hsome⟩ :=
      runRounds_total (occupiedCount g + 1) g hnd (by omega)
    obtain ⟨hfix, -⟩ :=
      runRounds_sound (occupiedCount g + 1) g total g' hnd hsome
    exact ⟨total, g', hsome, hfix⟩

/-- Witness for C6 on a one-cell grid. -/
theorem claim_C6_witness :
    occupiedCount (gridUpdate [(((0 : ℤ), (0 : ℤ)), '@')]
        (roll_access [(((0 : ℤ), (0 : ℤ)), '@')])) ≤
      occupiedCount [(((0 : ℤ), (0 : ℤ)), '@')] ∧
    (roll_access [(((0 : ℤ), (0 : ℤ)), '@')] ≠ [] →
      occupiedCount (gridUpdate [(((0 : ℤ), (0 : ℤ)), '@')]
          (roll_access [(((0 : ℤ), (0 : ℤ)), '@')])) <
        occupiedCount [(((0 : ℤ), (0 : ℤ)), '@')]) ∧
    ∃ total g',
      runRounds (occupiedCount [(((0 : ℤ), (0 : ℤ)), '@')] + 1)
          [(((0 : ℤ), (0 : ℤ)), '@')] = some (total, g') ∧
        roll_access g' = [] :=
  claim_C6 [(((0 : ℤ), (0 : ℤ)), '@')] (by decide)

end Day4

namespace Day7

/-- Grid of `solve_2` (src/day7/main.py): association list from `(y, x)` to
the character of the stripped input line `y` at column `x`. -/
abbrev Grid := List ((ℤ × ℤ) × Char)

/-- Build the grid dictionary exactly as the nested `enumerate` loops do. -/
def gridOfLines (lines : List (List Char)) : Grid :=
  lines.enum.flatMap fun yl =>
    yl.2.enum.map fun xc => (((yl.1 : ℤ), (xc.1 : ℤ)), xc.2)

/-- `grid_len = len(file.readlines()) - 1` (src/day7/main.py, line 71). -/
def gridLenOf (lines : List (List Char)) : ℤ := (lines.length : ℤ) - 1

/-- `row_len` ends up as the length of the last processed line
(src/day7/main.py, line 76 runs once per line, the last one wins). -/
def rowLenOf (lines : List (List Char)) : ℤ := ((lines.getLastD []).length : ℤ)

/-- `start_pos`: repeatedly overwritten whenever an `'S'` is seen, so the last
`'S'` in scan order wins; `none` when the input has no `'S'` (the Python
script would crash with an unbound local). -/
def startPos (lines : List (List Char)) : Option (ℤ × ℤ) :=
  (gridOfLines lines).foldl
    (fun acc pc => if pc.2 = 'S' then some pc.1 else acc) none

/-- The recursive `traverse(pos, prev_pos)` of `solve_2`
(src/day7/main.py, lines 92-108).  The `prev_pos` argument only keys the
`lru_cache` and never changes the returned value, so it is omitted here; the
value is computed exactly as in the source: reaching past the last row counts
one path, a splitter sums the two branches (each guarded by the column bounds
`0 <= nx ± 1 <= row_len`), a `'.'` continues straight down, and anything else
(including a missing cell) contributes zero paths. -/
def traverse (grid : Grid) (gridLen rowLen : ℤ) : ℤ × ℤ → ℕ := fun pos =>
  if _h : gridLen < pos.1 + 1 then 1
  else
    match List.lookup (pos.1 + 1, pos.2) grid with
    | some c =>
      if c = '^' then
        (if 0 ≤ pos.2 - 1 ∧ pos.2 - 1 ≤ rowLen then
          traverse grid gridLen rowLen (pos.1 + 1, pos.2 - 1)
        else 0) +
        (if 0 ≤ pos.2 + 1 ∧ pos.2 + 1 ≤ rowLen then
          traverse grid gridLen rowLen (pos.1 + 1, pos.2 + 1)
        else 0)
      else if c = '.' then traverse grid gridLen rowLen (pos.1 + 1, pos.2)
      else 0
    | none => 0
termination_by pos => (gridLen + 1 - pos.1).toNat
decreasing_by all_goals simp_wf; omega

/-- `solve_2` (src/day7/main.py, lines 67-110): count the paths from the
start position; `none` models the crash on inputs with no `'S'`. -/
def solve_2 (lines : List (List Char)) : Option ℕ :=
  (startPos lines).map fun s =>
    traverse (gridOfLines lines) (gridLenOf lines) (rowLenOf lines) s

theorem traverse_past (grid : Grid) (gridLen rowLen : ℤ) (y x : ℤ)
    (h : gridLen < y + 1) : traverse grid gridLen rowLen (y, x) = 1 := by
  rw [traverse]
  simp only
  rw [dif_pos h]

theorem traverse_split (grid : Grid) (gridLen rowLen : ℤ) (y x : ℤ)
    (h : ¬ gridLen < y + 1) (hc : List.lookup (y + 1, x) grid = some '^') :
    traverse grid gridLen rowLen (y, x) =
      (if 0 ≤ x - 1 ∧ x - 1 ≤ rowLen then
        traverse grid gridLen rowLen (y + 1, x - 1)
      else 0) +
      (if 0 ≤ x + 1 ∧ x + 1 ≤ rowLen then
        traverse grid gridLen rowLen (y + 1, x + 1)
      else 0) := by
  rw [traverse]
  simp only
  rw [dif_neg h, hc]
  rfl

theorem traverse_cont (grid : Grid) (gridLen rowLen : ℤ) (y x : ℤ)
    (h : ¬ gridLen < y + 1) (hc : List.lookup (y + 1, x) grid = some '.') :
    traverse grid gridLen rowLen (y, x) =
      traverse grid gridLen rowLen (y + 1, x) := by
  rw [traverse]
  simp only
  rw [dif_neg h, hc]
  simp

/-- A straight run: all cells below the current one, down to the last row,
are `'.'`, so exactly one path is counted. -/
theorem traverse_straight (grid : Grid) (gridLen rowLen : ℤ) :
    ∀ (k : ℕ) (y x : ℤ), (gridLen + 1 - y).toNat = k →
      (∀ y', y < y' → y' ≤ gridLen → List.lookup (y', x) grid = some '.') →
      traverse grid gridLen rowLen (y, x) = 1 := by
  intro k
  induction k using Nat.strong_induction_on with
  | _ k ih =>
    intro y x hk hstr
    by_cases h : gridLen < y + 1
    · exact traverse_past grid gridLen rowLen y x h
    · rw [traverse_cont grid gridLen rowLen y x h
        (hstr (y + 1) (by omega) (by omega))]
      exact ih ((gridLen + 1 - (y + 1)).toNat) (by omega) (y + 1) x rfl
        (fun y' h1 h2 => hstr y' (by omega) h2)

/-- C7: at a splitter cell the path count is the sum of the two branch counts
(each branch contributing only when its column stays within
`0 <= nx ± 1 <= row_len`); a straight run of `'.'` cells down to the row
boundary counts exactly one path; and the two-line grid `.S.` / `.^.` (one
splitter row, both branches then exiting directly) yields exactly two total
paths. -/
theorem claim_C7 (grid : Grid) (gridLen rowLen : ℤ) :
    (∀ y x, ¬ gridLen < y + 1 → List.lookup (y + 1, x) grid = some '^' →
      traverse grid gridLen rowLen (y, x) =
        (if 0 ≤ x - 1 ∧ x - 1 ≤ rowLen then
          traverse grid gridLen rowLen (y + 1, x - 1)
        else 0) +
        (if 0 ≤ x + 1 ∧ x + 1 ≤ rowLen then
          traverse grid gridLen rowLen (y + 1, x + 1)
        else 0)) ∧
    (∀ y x, (∀ y', y < y' → y' ≤ gridLen → List.lookup (y', x) grid = some '.') →
      traverse grid gridLen rowLen (y, x) = 1) ∧
    solve_2 [['.', 'S', '.'], ['.', '^', '.']] = some 2 := by
  refine ⟨fun y x h hc => traverse_split grid gridLen rowLen y x h hc,
    fun y x hstr => traverse_straight grid gridLen rowLen _ y x rfl hstr, ?_⟩
  have hstart : startPos [['.', 'S', '.'], ['.', '^', '.']] = some (0, 1) := by decide
  unfold solve_2
  rw [hstart]
  have hgl : gridLenOf [['.', 'S', '.'], ['.', '^', '.']] = 1 := by decide
  have hrl : rowLenOf [['.', 'S', '.'], ['.', '^', '.']] = 3 := by decide
  rw [Option.map_some', hgl, hrl]
  have hsplit := traverse_split (gridOfLines [['.', 'S', '.'], ['.', '^', '.']])
    1 3 0 1 (by norm_num) (by decide)
  rw [hsplit, if_pos (by norm_num : (0 : ℤ) ≤ 1 - 1 ∧ (1 : ℤ) - 1 ≤ 3),
    if_pos (by norm_num : (0 : ℤ) ≤ 1 + 1 ∧ (1 : ℤ) + 1 ≤ 3),
    traverse_past _ 1 3 (0 + 1) (1 - 1) (by norm_num),
    traverse_past _ 1 3 (0 + 1) (1 + 1) (by norm_num)]

/-- Witness for C7: the splitter equation instantiated on the concrete
two-line grid. -/
theorem claim_C7_witness :
    traverse (gridOfLines [['.', 'S', '.'], ['.', '^', '.']]) 1 3 (0, 1) =
      (if 0 ≤ (1 : ℤ) - 1 ∧ (1 : ℤ) - 1 ≤ 3 then
        traverse (gridOfLines [['.', 'S', '.'], ['.', '^', '.']]) 1 3 (0 + 1, 1 - 1)
      else 0) +
      (if 0 ≤ (1 : ℤ) + 1 ∧ (1 : ℤ) + 1 ≤ 3 then
        traverse (gridOfLines [['.', 'S', '.'], ['.', '^', '.']]) 1 3 (0 + 1, 1 + 1)
      else 0) :=
  (claim_C7 (gridOfLines [['.', 'S', '.'], ['.', '^', '.']]) 1 3).1 0 1
    (by decide) (by decide)

end Day7

namespace Day8

/-- A 3-D point as parsed from the input (src/day8/main.py, `read_input`). -/
abbrev Point := ℤ × ℤ × ℤ

/-- A pair of points, in the orientation the distance builder stores it. -/
abbrev Edge := Point × Point

/-- Squared Euclidean distance.  The source sorts by
`euclidean_distance = sqrt(sqDist)`, a strictly monotone function of this
squared value, so ordering by `sqDist` orders exactly as the source does
whenever no two distinct square roots collide as floats. -/
def sqDist (a b : Point) : ℤ :=
  (a.1 - b.1) * (a.1 - b.1) + (a.2.1 - b.2.1) * (a.2.1 - b.2.1) +
    (a.2.2 - b.2.2) * (a.2.2 - b.2.2)

/-- The `distances` set built by `main` (src/day8/main.py, lines 69-78),
kept in insertion order: for each ordered pair `(a, b)` of distinct points,
`((a, b), d)` is added unless `((b, a), d)` is already present. -/
def day8Distances (coords : List Point) : List (Edge × ℤ) :=
  coords.foldl
    (fun acc a =>
      coords.foldl
        (fun acc2 b =>
          if a = b then acc2
          else if ((b, a), sqDist b a) ∈ acc2 then acc2
          else acc2 ++ [((a, b), sqDist a b)])
        acc)
    []

/-- `connections[node] = gid` on the Python dict: update in place when the
key exists, append otherwise. -/
def setConn (conns : List (Point × ℕ)) (p : Point) (gid : ℕ) : List (Point × ℕ) :=
  if (List.lookup p conns).isSome then
    conns.map fun kv => if kv.1 = p then (p, gid) else kv
  else conns ++ [(p, gid)]

/-- The merge loop of `p1` (src/day8/main.py, lines 33-37): every node in
`old_group` moves to `new_group`. -/
def mergeGroups (conns : List (Point × ℕ)) (old_group new_group : ℕ) :
    List (Point × ℕ) :=
  conns.map fun kv => if kv.2 = old_group then (kv.1, new_group) else kv

/-- `len(set(connections.values())) == 1`: the dict is nonempty and all
group ids agree. -/
def allSameGroup : List (Point × ℕ) → Bool
  | [] => false
  | kv :: rest => rest.all fun kv2 => kv2.2 == kv.2

/-- The full unification test of `p1` (src/day8/main.py, lines 51-56):
`total_coords` truthy, every point connected, one group id. -/
def unifiedCheck (total : ℕ) (conns : List (Point × ℕ)) : Bool :=
  total != 0 && conns.length == total && allSameGroup conns

/-- The per-edge update of `p1` (src/day8/main.py, lines 29-48), shared by
the source loop and the spec-side reference below.  Returns the new
`(connections, group_id)` state and whether the edge fell into the
"both already connected" branch (whose Python `continue` skips the
unification check). -/
def groupStep (conns : List (Point × ℕ)) (gid : ℕ) (a b : Point) :
    (List (Point × ℕ) × ℕ) × Bool :=
  if (List.lookup a conns).isSome && (List.lookup b conns).isSome then
    let old_group := (List.lookup b conns).getD 0
    let new_group := (List.lookup a conns).getD 0
    ((if new_group ≠ old_group then mergeGroups conns old_group new_group
      else conns, gid), true)
  else if !(List.lookup a conns).isSome && !(List.lookup b conns).isSome then
    ((setConn (setConn conns a gid) b gid, gid + 1), false)
  else if (List.lookup a conns).isSome then
    ((setConn conns b ((List.lookup a conns).getD 0), gid), false)
  else
    ((setConn conns a ((List.lookup b conns).getD 0), gid), false)

/-- The edge loop of `p1` (src/day8/main.py, lines 25-57) as called from
`main` with `iter = math.inf` (so the `i >= iter` break never fires and the
index plays no role): process edges in order, run the unification check
only after edges that connected a previously unconnected point (the
both-connected branch ends in `continue`), and stop with the current edge
as `last_connection` when the check passes. -/
def p1Loop (total : ℕ) :
    List Edge → List (Point × ℕ) → ℕ → List (Point × ℕ) × Option Edge
  | [], conns, _ => (conns, none)
  | (a, b) :: rest, conns, gid =>
    let s := groupStep conns gid a b
    if s.2 then p1Loop total rest s.1.1 s.1.2
    else if unifiedCheck total s.1.1 then (s.1.1, some (a, b))
    else p1Loop total rest s.1.1 s.1.2

/-- Modelled from the spec: process all edges with the same grouping
updates and run the group-count test after every edge, reporting the first
edge whose addition makes every point belong to a single group, together
with a flag telling whether that edge fell into the both-connected
branch. -/
def specLastConn (total : ℕ) :
    List Edge → List (Point × ℕ) → ℕ → Option (Edge × Bool)
  | [], _, _ => none
  | (a, b) :: rest, conns, gid =>
    let s := groupStep conns gid a b
    if unifiedCheck total s.1.1 then some ((a, b), s.2)
    else specLastConn total rest s.1.1 s.1.2

/-- Group sizes in first-occurrence order of the group ids, and the Part 1
value of `p1`: the product of the three largest group sizes. -/
def groupSizes (conns : List (Point × ℕ)) : List ℕ :=
  ((conns.map Prod.snd).dedup).map fun g => (conns.map Prod.snd).count g

/-- `p1(distances, math.inf, total)` (src/day8/main.py): the Part 1 product
and the reported last connection. -/
def p1 (distances : List (Edge × ℤ)) (total : ℕ) : ℕ × Option Edge :=
  let r := p1Loop total (distances.map Prod.fst) [] 1
  ((((groupSizes r.1).insertionSort (· ≥ ·)).take 3).prod, r.2)

theorem plookup_cons (p q : Point) (c : ℕ) (l : List (Point × ℕ)) :
    List.lookup p ((q, c) :: l) = if p = q then some c else List.lookup p l := by
  cases h : p == q
  · have hne : p ≠ q := by simpa using h
    simp [List.lookup, h, hne]
  · have heq : p = q := by simpa using h
    simp [List.lookup, h, heq]

theorem plookup_isSome_iff (p : Point) (l : List (Point × ℕ)) :
    (List.lookup p l).isSome = true ↔ p ∈ l.map Prod.fst := by
  induction l with
  | nil => simp
  | cons qc l ih =>
    obtain ⟨q, c⟩ := qc
    rw [plookup_cons]
    by_cases h : p = q <;> simp [h, ih]

/-- `setConn` preserves the key list when the key is present and appends the
key otherwise. -/
theorem setConn_keys (conns : List (Point × ℕ)) (p : Point) (gid : ℕ) :
    (setConn conns p gid).map Prod.fst =
      if (List.lookup p conns).isSome then conns.map Prod.fst
      else conns.map Prod.fst ++ [p] := by
  unfold setConn
  by_cases h : (List.lookup p conns).isSome
  · rw [if_pos h, if_pos h, List.map_map]
    apply List.map_congr_left
    intro kv _
    simp only [Function.comp_apply]
    by_cases hkv : kv.1 = p <;> simp [hkv]
  · rw [if_neg h, if_neg h, List.map_append]
    rfl

theorem mergeGroups_keys (conns : List (Point × ℕ)) (o n : ℕ) :
    (mergeGroups conns o n).map Prod.fst = conns.map Prod.fst := by
  unfold mergeGroups
  rw [List.map_map]
  apply List.map_congr_left
  intro kv _
  simp only [Function.comp_apply]
  by_cases hkv : kv.2 = o <;> simp [hkv]

/-- The key-list invariant carried through the loop: keys are distinct and
drawn from the point set. -/
def KeysOK (pts : List Point) (conns : List (Point × ℕ)) : Prop :=
  (conns.map Prod.fst).Nodup ∧ ∀ q ∈ conns.map Prod.fst, q ∈ pts

theorem setConn_keysOK {pts : List Point} {conns : List (Point × ℕ)}
    {p : Point} {gid : ℕ} (h : KeysOK pts conns) (hp : p ∈ pts) :
    KeysOK pts (setConn conns p gid) := by
  obtain ⟨hnd, hsub⟩ := h
  constructor
  · rw [setConn_keys]
    by_cases hs : (List.lookup p conns).isSome
    · rwa [if_pos hs]
    · rw [if_neg hs]
      have hnot : p ∉ conns.map Prod.fst := by
        intro hmem
        exact hs ((plookup_isSome_iff p conns).mpr hmem)
      rw [List.nodup_append]
      exact ⟨hnd, List.nodup_singleton p, by simpa using hnot⟩
  · rw [setConn_keys]
    by_cases hs : (List.lookup p conns).isSome
    · rwa [if_pos hs]
    · rw [if_neg hs]
      intro q hq
      rcases List.mem_append.mp hq with hq | hq
      · exact hsub q hq
      · rw [List.mem_singleton.mp hq]
        exact hp

theorem groupStep_keysOK {pts : List Point} {conns : List (Point × ℕ)}
    {gid : ℕ} {a b : Point} (h : KeysOK pts conns) (ha : a ∈ pts)
    (hb : b ∈ pts) : KeysOK pts (groupStep conns gid a b).1.1 := by
  unfold groupStep
  by_cases h1 : (List.lookup a conns).isSome && (List.lookup b conns).isSome
  · rw [if_pos h1]
    simp only
    by_cases h2 : (List.lookup a conns).getD 0 ≠ (List.lookup b conns).getD 0
    · rw [if_pos h2]
      exact ⟨by rw [mergeGroups_keys]; exact h.1, by rw [mergeGroups_keys]; exact h.2⟩
    · rw [if_neg h2]
      exact h
  · rw [if_neg h1]
    by_cases h2 : !(List.lookup a conns).isSome && !(List.lookup b conns).isSome
    · rw [if_pos h2]
      exact setConn_keysOK (setConn_keysOK h ha) hb
    · rw [if_neg h2]
      by_cases h3 : (List.lookup a conns).isSome
      · rw [if_pos h3]
        exact setConn_keysOK h hb
      · rw [if_neg h3]
        exact setConn_keysOK h ha

/-- Every point already has a group id. -/
def Covered (pts : List Point) (conns : List (Point × ℕ)) : Prop :=
  ∀ q ∈ pts, (List.lookup q conns).isSome = true

theorem covered_of_keys_eq {pts : List Point} {c c' : List (Point × ℕ)}
    (hk : c'.map Prod.fst = c.map Prod.fst) (h : Covered pts c) :
    Covered pts c' := by
  intro q hq
  rw [plookup_isSome_iff, hk, ← plookup_isSome_iff]
  exact h q hq

theorem covered_of_full {pts : List Point} {conns : List (Point × ℕ)}
    (h : KeysOK pts conns)
    (hlen : conns.length = pts.length) : Covered pts conns := by
  obtain ⟨hnd, hsub⟩ := h
  have hsp : (conns.map Prod.fst).Subperm pts :=
    List.subperm_of_subset hnd fun q hq => hsub q hq
  have hperm : (conns.map Prod.fst).Perm pts := by
    apply hsp.perm_of_length_le
    rw [List.length_map, hlen]
  intro q hq
  rw [plookup_isSome_iff]
  exact hperm.mem_iff.mpr hq

/-- When an edge joins two already-connected points, the step takes the
merge branch and leaves the key list unchanged. -/
theorem groupStep_both {conns : List (Point × ℕ)} (gid : ℕ) {a b : Point}
    (hA : (List.lookup a conns).isSome = true)
    (hB : (List.lookup b conns).isSome = true) :
    (groupStep conns gid a b).2 = true ∧
      (groupStep conns gid a b).1.1.map Prod.fst = conns.map Prod.fst := by
  unfold groupStep
  rw [if_pos (by rw [hA, hB]; rfl)]
  simp only
  constructor
  · trivial
  · by_cases h2 : (List.lookup a conns).getD 0 ≠ (List.lookup b conns).getD 0
    · rw [if_pos h2, mergeGroups_keys]
    · rw [if_neg h2]

/-- Once every point is connected, no later edge runs the unification check,
so the loop finishes with no reported last connection. -/
theorem p1Loop_none_of_covered {pts : List Point} (total : ℕ) :
    ∀ (edges : List Edge) (conns : List (Point × ℕ)) (gid : ℕ),
      Covered pts conns → (∀ e ∈ edges, e.1 ∈ pts ∧ e.2 ∈ pts) →
      (p1Loop total edges conns gid).2 = none := by
  intro edges
  induction edges with
  | nil =>
    intro conns gid _ _
    rfl
  | cons e rest ih =>
    intro conns gid hcov hend
    obtain ⟨a, b⟩ := e
    have hA := hcov a (hend (a, b) (List.mem_cons_self _ _)).1
    have hB := hcov b (hend (a, b) (List.mem_cons_self _ _)).2
    obtain ⟨hflag, hkeys⟩ := groupStep_both gid hA hB
    show (let s := groupStep conns gid a b
      if s.2 then p1Loop total rest s.1.1 s.1.2
      else if unifiedCheck total s.1.1 then (s.1.1, some (a, b))
      else p1Loop total rest s.1.1 s.1.2).2 = none
    simp only [hflag, if_true]
    exact ih _ _ (covered_of_keys_eq hkeys hcov)
      (fun e he => hend e (List.mem_cons_of_mem _ he))

theorem unifiedCheck_length {total : ℕ} {conns : List (Point × ℕ)}
    (h : unifiedCheck total conns = true) : conns.length = total := by
  unfold unifiedCheck at h
  simp only [Bool.and_eq_true] at h
  exact beq_iff_eq.mp h.1.2

/-- The core refinement relation: the early-stopping loop reports the first
unifying edge exactly when that edge connected a new point, and reports
nothing when the first unifying edge merged two existing groups. -/
theorem p1Loop_eq_spec (pts : List Point) :
    ∀ (edges : List Edge) (conns : List (Point × ℕ)) (gid : ℕ),
      KeysOK pts conns →
      (∀ e ∈ edges, e.1 ∈ pts ∧ e.2 ∈ pts) →
      (p1Loop pts.length edges conns gid).2 =
        match specLastConn pts.length edges conns gid with
        | none => none
        | some (_, true) => none
        | some (e, false) => some e := by
  intro edges
  induction edges with
  | nil =>
    intro conns gid _ _
    rfl
  | cons e rest ih =>
    intro conns gid hok hend
    obtain ⟨a, b⟩ := e
    have hinv : KeysOK pts (groupStep conns gid a b).1.1 :=
      groupStep_keysOK hok (hend (a, b) (List.mem_cons_self _ _)).1
        (hend (a, b) (List.mem_cons_self _ _)).2
    have hrest : ∀ e ∈ rest, e.1 ∈ pts ∧ e.2 ∈ pts :=
      fun e he => hend e (List.mem_cons_of_mem _ he)
    show (let s := groupStep conns gid a b
      if s.2 then p1Loop pts.length rest s.1.1 s.1.2
      else if unifiedCheck pts.length s.1.1 then (s.1.1, some (a, b))
      else p1Loop pts.length rest s.1.1 s.1.2).2 =
        match
          (let s := groupStep conns gid a b
           if unifiedCheck pts.length s.1.1 then some ((a, b), s.2)
           else specLastConn pts.length rest s.1.1 s.1.2) with
        | none => none
        | some (_, true) => none
        | some (e, false) => some e
    simp only
    by_cases hu : unifiedCheck pts.length (groupStep conns gid a b).1.1 = true
    · have hcov : Covered pts (groupStep conns gid a b).1.1 :=
        covered_of_full hinv (unifiedCheck_length hu)
      cases hflag : (groupStep conns gid a b).2
      · rw [if_neg (by simp), if_pos hu, if_pos hu]
      · rw [if_pos rfl, if_pos hu]
        exact p1Loop_none_of_covered pts.length rest _ _ hcov hrest
    · have htail := ih (groupStep conns gid a b).1.1 (groupStep conns gid a b).1.2
        hinv hrest
      cases hflag : (groupStep conns gid a b).2
      · rw [if_neg (by simp), if_neg hu, if_neg hu]
        exact htail
      · rw [if_pos rfl, if_neg hu]
        exact htail

/-- C2 (amended): for every point set and edge sequence over it, the
early-stopping loop's reported `last_connection` equals the first edge whose
addition unifies all points whenever that edge connected a previously
unconnected point; when the first unifying edge merges two already-grouped
points, the `continue` in the both-connected branch skips the check and the
loop reports no last connection. -/
theorem claim_C2 (pts : List Point) (edges : List Edge)
    (hend : ∀ e ∈ edges, e.1 ∈ pts ∧ e.2 ∈ pts) :
    (p1Loop pts.length edges [] 1).2 =
      match specLastConn pts.length edges [] 1 with
      | none => none
      | some (_, true) => none
      | some (e, false) => some e :=
  p1Loop_eq_spec pts edges [] 1 ⟨List.nodup_nil, by simp⟩ hend

/-- Counterexample for C2 as stated: with four points forming two nearby
pairs, the first unifying edge (the third one) merges two existing groups,
so the loop never runs its check again and reports no last connection,
while the spec-side reference identifies that edge. -/
theorem claim_C2_counterexample :
    (p1Loop 4
        ([((0, 0, 0), (1, 0, 0)), ((10, 0, 0), (12, 0, 0)),
          ((1, 0, 0), (10, 0, 0)), ((0, 0, 0), (10, 0, 0)),
          ((1, 0, 0), (12, 0, 0)), ((0, 0, 0), (12, 0, 0))] : List Edge) [] 1).2 = none ∧
      specLastConn 4
        ([((0, 0, 0), (1, 0, 0)), ((10, 0, 0), (12, 0, 0)),
          ((1, 0, 0), (10, 0, 0)), ((0, 0, 0), (10, 0, 0)),
          ((1, 0, 0), (12, 0, 0)), ((0, 0, 0), (12, 0, 0))] : List Edge) [] 1 =
        some ((((1, 0, 0), (10, 0, 0)) : Edge), true) ∧
      (none : Option Edge) ≠ some (((1, 0, 0), (10, 0, 0)) : Edge) := by
  refine ⟨by decide, by decide, by decide⟩

/-- Witness for C2 (amended) on three collinear points, where the unifying
edge does connect a new point and both sides report it. -/
theorem claim_C2_witness :
    (p1Loop ([((0, 0, 0) : Point), (1, 0, 0), (10, 0, 0)]).length
        [((0, 0, 0), (1, 0, 0)), ((1, 0, 0), (10, 0, 0)),
          ((0, 0, 0), (10, 0, 0))] [] 1).2 =
      match specLastConn ([((0, 0, 0) : Point), (1, 0, 0), (10, 0, 0)]).length
          [((0, 0, 0), (1, 0, 0)), ((1, 0, 0), (10, 0, 0)),
            ((0, 0, 0), (10, 0, 0))] [] 1 with
      | none => none
      | some (_, true) => none
      | some (e, false) => some e :=
  claim_C2 [((0, 0, 0) : Point), (1, 0, 0), (10, 0, 0)]
    [((0, 0, 0), (1, 0, 0)), ((1, 0, 0), (10, 0, 0)), ((0, 0, 0), (10, 0, 0))]
    (by decide)

/-- Two sorted lists with the same elements and pairwise distinct sort keys
are equal. -/
theorem sorted_perm_eq :
    ∀ {l1 l2 : List (Edge × ℤ)}, l1.Perm l2 →
      l1.Sorted (fun x y => x.2 ≤ y.2) → l2.Sorted (fun x y => x.2 ≤ y.2) →
      (∀ x ∈ l1, ∀ y ∈ l1, x.2 = y.2 → x = y) → l1 = l2 := by
  intro l1
  induction l1 with
  | nil =>
    intro l2 hp _ _ _
    exact List.Perm.nil_eq hp
  | cons x l1 ih =>
    intro l2 hp hs1 hs2 hinj
    cases l2 with
    | nil => exact absurd hp.symm (by simp)
    | cons y l2 =>
      have hxy : x = y := by
        have hxmem : x ∈ y :: l2 := hp.mem_iff.mp (List.mem_cons_self _ _)
        have hymem : y ∈ x :: l1 := hp.symm.mem_iff.mp (List.mem_cons_self _ _)
        rcases List.mem_cons.mp hxmem with h | h
        · exact h
        · rcases List.mem_cons.mp hymem with h2 | h2
          · exact h2.symm
          · have h1 : x.2 ≤ y.2 := (List.sorted_cons.mp hs1).1 y h2
            have h2' : y.2 ≤ x.2 := (List.sorted_cons.mp hs2).1 x h
            exact hinj x (List.mem_cons_self _ _) y (List.mem_cons_of_mem _ h2)
              (le_antisymm h1 h2')
      subst hxy
      have hp' : l1.Perm l2 := hp.cons_inv
      rw [ih hp' (List.sorted_cons.mp hs1).2 (List.sorted_cons.mp hs2).2
        (fun a ha b hb hab =>
          hinj a (List.mem_cons_of_mem _ ha) b (List.mem_cons_of_mem _ hb) hab)]

/-- The tie-free part of the day-8 determinism question: when no two stored
pairs share a squared distance, any two sorted enumerations of the distance
set coincide, so the Part 1 product and the reported last connection do not
depend on how the set iteration ordered the pairs. -/
theorem p1_eq_of_sorted_perm_distinct (coords : List Point) (l1 l2 : List (Edge × ℤ))
    (hp1 : l1.Perm (day8Distances coords)) (hp2 : l2.Perm (day8Distances coords))
    (hs1 : l1.Sorted fun x y => x.2 ≤ y.2) (hs2 : l2.Sorted fun x y => x.2 ≤ y.2)
    (hinj : ∀ x ∈ day8Distances coords, ∀ y ∈ day8Distances coords,
      x.2 = y.2 → x = y) :
    p1 l1 coords.length = p1 l2 coords.length := by
  have h12 : l1 = l2 :=
    sorted_perm_eq (hp1.trans hp2.symm) hs1 hs2
      (fun x hx y hy => hinj x (hp1.mem_iff.mp hx) y (hp1.mem_iff.mp hy))
  rw [h12]

/-- With equal distances the tie case is genuinely order-sensitive: for the
three collinear points `(0,0,0), (1,0,0), (2,0,0)` the two stored pairs at
squared distance 1 admit two sorted enumerations of the same distance set,
and the loop reports a different last connection for each (the Part 1
products agree).  Which of the two a run produces is fixed only by the
runtime's set iteration order, not by the algorithm. -/
theorem p1_tie_order_dependent :
    ([(((0, 0, 0), (1, 0, 0)), 1), (((1, 0, 0), (2, 0, 0)), 1),
        (((0, 0, 0), (2, 0, 0)), 4)] : List (Edge × ℤ)).Perm
      (day8Distances [((0, 0, 0) : Point), (1, 0, 0), (2, 0, 0)]) ∧
    ([(((1, 0, 0), (2, 0, 0)), 1), (((0, 0, 0), (1, 0, 0)), 1),
        (((0, 0, 0), (2, 0, 0)), 4)] : List (Edge × ℤ)).Perm
      (day8Distances [((0, 0, 0) : Point), (1, 0, 0), (2, 0, 0)]) ∧
    ([(((0, 0, 0), (1, 0, 0)), 1), (((1, 0, 0), (2, 0, 0)), 1),
        (((0, 0, 0), (2, 0, 0)), 4)] : List (Edge × ℤ)).Sorted
      (fun x y => x.2 ≤ y.2) ∧
    ([(((1, 0, 0), (2, 0, 0)), 1), (((0, 0, 0), (1, 0, 0)), 1),
        (((0, 0, 0), (2, 0, 0)), 4)] : List (Edge × ℤ)).Sorted
      (fun x y => x.2 ≤ y.2) ∧
    (p1 ([(((0, 0, 0), (1, 0, 0)), 1), (((1, 0, 0), (2, 0, 0)), 1),
        (((0, 0, 0), (2, 0, 0)), 4)] : List (Edge × ℤ)) 3).1 =
      (p1 ([(((1, 0, 0), (2, 0, 0)), 1), (((0, 0, 0), (1, 0, 0)), 1),
        (((0, 0, 0), (2, 0, 0)), 4)] : List (Edge × ℤ)) 3).1 ∧
    (p1 ([(((0, 0, 0), (1, 0, 0)), 1), (((1, 0, 0), (2, 0, 0)), 1),
        (((0, 0, 0), (2, 0, 0)), 4)] : List (Edge × ℤ)) 3).2 ≠
      (p1 ([(((1, 0, 0), (2, 0, 0)), 1), (((0, 0, 0), (1, 0, 0)), 1),
        (((0, 0, 0), (2, 0, 0)), 4)] : List (Edge × ℤ)) 3).2 :=
  ⟨by decide, by decide, by decide, by decide, by decide, by decide⟩

end Day8

namespace Outputs

/-- A two-line output in the interface format claimed by the spec:
`Part 1: <value>` then `Part 2: <value>`. -/
def IsPartFormat (lines : List String) : Prop :=
  ∃ v1 v2, lines = ["Part 1: " ++ v1, "Part 2: " ++ v2]

/-- The two lines printed by `main` of src/day02/main.py (lines 61-62),
given the computed sums. -/
def day02_output (total_sum p2_total_sum : ℕ) : List String :=
  ["Total sum of invalid IDs: " ++ toString total_sum,
    "Total sum of invalid IDs - Part 2: " ++ toString p2_total_sum]

/-- `find_invalid_ids_in_range` (src/day2/agent.py, lines 163-186). -/
def find_invalid_ids_in_range (start stop : ℕ) (validator : ℕ → Bool) :
    List ℕ :=
  (List.range' start (stop + 1 - start)).filter validator

/-- `calculate_invalid_sum` (src/day2/agent.py, lines 189-211). -/
def calculate_invalid_sum (ranges : List (ℕ × ℕ)) (validator : ℕ → Bool) : ℕ :=
  (ranges.map fun r => (find_invalid_ids_in_range r.1 r.2 validator).sum).sum

/-- The two lines printed by `main` of src/day2/agent.py (lines 253-254). -/
def agent_output (ranges : List (ℕ × ℕ)) : List String :=
  ["Part 1: " ++ toString (calculate_invalid_sum ranges Day2.is_invalid_part1),
    "Part 2: " ++ toString (calculate_invalid_sum ranges Day2.is_invalid_part2)]

/-- The two lines printed by `main` of src/day4/main.py (lines 46 and 58),
driven by the embedded computation: Part 1 is the size of the first round's
clear set, Part 2 the accumulated total at the fixed point. -/
def day4_main_output (g : Day4.Grid) (fuel : ℕ) : Option (List String) :=
  (Day4.runRounds fuel g).map fun r =>
    ["Part 1: " ++ toString (Day4.roll_access g).length,
      "Part 2: " ++ toString r.1]

theorem take8_of_append (s : List Char) (t : List Char) (h : 8 ≤ s.length) :
    (s ++ t).take 8 = s.take 8 := List.take_append_of_le_length h

theorem day02_not_part_format (t1 t2 : ℕ) :
    ¬ IsPartFormat (day02_output t1 t2) := by
  rintro ⟨v1, v2, h⟩
  have h1 : "Total sum of invalid IDs: " ++ toString t1 = "Part 1: " ++ v1 := by
    have := congrArg (fun l => l.get? 0) h
    simpa [day02_output] using this
  have h2 := congrArg String.data h1
  rw [String.data_append, String.data_append] at h2
  have h3 := congrArg (List.take 8) h2
  rw [take8_of_append _ _ (by decide), take8_of_append _ _ (by decide)] at h3
  exact absurd h3 (by decide)

/-- Counterexample for C9: a successful run of src/day02/main.py does not
print `Part 1: <value>` / `Part 2: <value>`; its two lines use the
`Total sum of invalid IDs` wording instead. -/
theorem claim_C9_counterexample :
    day02_output 33 33 =
      ["Total sum of invalid IDs: 33", "Total sum of invalid IDs - Part 2: 33"] ∧
      ¬ IsPartFormat (day02_output 33 33) :=
  ⟨by decide, day02_not_part_format 33 33⟩

/-- C9 (amended): scripts such as src/day4/main.py and src/day2/agent.py
print exactly the two lines `Part 1: <value>` / `Part 2: <value>`, but
src/day02/main.py prints `Total sum of invalid IDs: <value>` /
`Total sum of invalid IDs - Part 2: <value>`, which never matches the
claimed format. -/
theorem claim_C9 :
    (∀ g fuel lines, day4_main_output g fuel = some lines → IsPartFormat lines) ∧
    (∀ ranges, IsPartFormat (agent_output ranges)) ∧
    (∀ t1 t2, ¬ IsPartFormat (day02_output t1 t2)) := by
  refine ⟨?_, ?_, day02_not_part_format⟩
  · intro g fuel lines h
    unfold day4_main_output at h
    cases hr : Day4.runRounds fuel g with
    | none =>
      rw [hr] at h
      simp at h
    | some r =>
      rw [hr] at h
      simp only [Option.map_some'] at h
      exact ⟨_, _, (Option.some_inj.mp h).symm⟩
  · intro ranges
    exact ⟨_, _, rfl⟩

/-- Witness for C9 (amended): the day-4 output on a one-cell grid. -/
theorem claim_C9_witness : IsPartFormat ["Part 1: 1", "Part 2: 1"] :=
  claim_C9.1 [(((0 : ℤ), (0 : ℤ)), '@')] 2 ["Part 1: 1", "Part 2: 1"] (by decide)

end Outputs

namespace Day10

/-- A light pattern: the list of characters between the brackets of a parsed
step (src/day10/main.py, `read_input`). -/
abbrev Light := List Char

/-- A button: the list of light indices it toggles. -/
abbrev Button := List ℕ

/-- `press_button` (src/day10/main.py, lines 32-41): toggle each listed
index between `'#'` and `'.'`.  (Python would raise `IndexError` on an
out-of-range index; `List.set` leaves the list unchanged instead, which
coincides with the source on every well-formed parsed step.) -/
def press_button (curr_light : Light) (button : Button) : Light :=
  button.foldl
    (fun next_light idx =>
      next_light.set idx (if next_light.getD idx ' ' = '#' then '.' else '#'))
    curr_light

/-- A queue element of `p1`'s search: current light pattern, the button
stored with the entry (the last one pressed, or the seed button for the
depth-zero entries), and the press count.  The `visited` set stores exactly
these triples. -/
structure Entry where
  light : Light
  lastb : Button
  presses : ℕ
deriving DecidableEq

/-- The all-off pattern `["." for _ in light]`. -/
def allOff (light : Light) : Light := light.map fun _ => '.'

/-- The inner `for b in buttons` loop of `p1` (src/day10/main.py,
lines 124-130): press each button on the current pattern in order; on the
first match with the target, the minimum `presses + 1` is recorded and the
queue is cleared (modelled by returning the count); otherwise every
successor is appended in button order. -/
def expandButtons (light : Light) (curr : Light) (presses : ℕ) :
    List Button → ℕ ⊕ List Entry
  | [] => Sum.inr []
  | b :: rest =>
    let next_light := press_button curr b
    if next_light = light then Sum.inl (presses + 1)
    else
      match expandButtons light curr presses rest with
      | Sum.inl n => Sum.inl n
      | Sum.inr es => Sum.inr (⟨next_light, b, presses + 1⟩ :: es)

/-- The `while queue` loop of `p1` (src/day10/main.py, lines 117-131):
pop the front, skip it when its `(light, presses, button)` triple was seen,
otherwise record it and expand.  Explicit fuel models the unbounded loop
(which does not terminate when the target is unreachable). -/
def bfsLoop (light : Light) (buttons : List Button) :
    ℕ → List Entry → List Entry → Option ℕ
  | 0, _, _ => none
  | _ + 1, [], _ => none
  | fuel + 1, e :: rest, visited =>
    if e ∈ visited then bfsLoop light buttons fuel rest visited
    else
      match expandButtons light e.light e.presses buttons with
      | Sum.inl n => some n
      | Sum.inr es => bfsLoop light buttons fuel (rest ++ es) (e :: visited)

/-- One step of `p1` (src/day10/main.py, lines 118-131): the queue starts
with one all-off entry per button at zero presses. -/
def p1_single (light : Light) (buttons : List Button) (fuel : ℕ) : Option ℕ :=
  bfsLoop light buttons fuel (buttons.map fun b => ⟨allOff light, b, 0⟩) []

/-- Pressing a sequence of buttons in order. -/
def applySeq (start : Light) (seq : List Button) : Light :=
  seq.foldl press_button start

/-- Every button of the sequence is one of the step's buttons. -/
def ValidSeq (buttons : List Button) (seq : List Button) : Prop :=
  ∀ b ∈ seq, b ∈ buttons

/-- The target is reachable from all-off in exactly `n` presses. -/
def ReachIn (light : Light) (buttons : List Button) (n : ℕ) : Prop :=
  ∃ seq, ValidSeq buttons seq ∧ seq.length = n ∧
    applySeq (allOff light) seq = light

/-- The queue entry a nonempty press sequence gives rise to. -/
def entryOf (light : Light) (s : List Button) : Entry :=
  ⟨applySeq (allOff light) s, s.getLastD [], s.length⟩

/-- A queue entry is realised by some valid press sequence. -/
def EntrySound (light : Light) (buttons : List Button) (e : Entry) : Prop :=
  ∃ seq, ValidSeq buttons seq ∧ seq.length = e.presses ∧
    applySeq (allOff light) seq = e.light

end Day10

namespace Day10

theorem applySeq_concat (start : Light) (s : List Button) (b : Button) :
    applySeq start (s ++ [b]) = press_button (applySeq start s) b := by
  unfold applySeq
  rw [List.foldl_append]
  rfl

theorem expandButtons_inl {light curr : Light} {presses n : ℕ} :
    ∀ {bs : List Button}, expandButtons light curr presses bs = Sum.inl n →
      n = presses + 1 ∧ ∃ b ∈ bs, press_button curr b = light := by
  intro bs
  induction bs with
  | nil =>
    intro h
    simp [expandButtons] at h
  | cons b rest ih =>
    intro h
    rw [expandButtons] at h
    by_cases hb : press_button curr b = light
    · rw [if_pos hb] at h
      exact ⟨(Sum.inl.inj h).symm, b, List.mem_cons_self _ _, hb⟩
    · rw [if_neg hb] at h
      cases hrec : expandButtons light curr presses rest with
      | inl m =>
        rw [hrec] at h
        have hmn : m = n := Sum.inl.inj h
        subst hmn
        obtain ⟨hm, b', hb', hhit⟩ := ih hrec
        exact ⟨hm, b', List.mem_cons_of_mem _ hb', hhit⟩
      | inr es =>
        rw [hrec] at h
        simp at h

theorem expandButtons_inr {light curr : Light} {presses : ℕ} :
    ∀ {bs : List Button} {es : List Entry},
      expandButtons light curr presses bs = Sum.inr es →
      (∀ b ∈ bs, press_button curr b ≠ light) ∧
        es = bs.map fun b => ⟨press_button curr b, b, presses + 1⟩ := by
  intro bs
  induction bs with
  | nil =>
    intro es h
    simp [expandButtons] at h
    simp [h.symm]
  | cons b rest ih =>
    intro es h
    rw [expandButtons] at h
    by_cases hb : press_button curr b = light
    · rw [if_pos hb] at h
      simp at h
    · rw [if_neg hb] at h
      cases hrec : expandButtons light curr presses rest with
      | inl m =>
        rw [hrec] at h
        simp at h
      | inr es' =>
        rw [hrec] at h
        obtain ⟨hne, hes'⟩ := ih hrec
        refine ⟨?_, ?_⟩
        · intro b' hb'
          rcases List.mem_cons.mp hb' with rfl | hmem
          · exact hb
          · exact hne b' hmem
        · rw [← Sum.inr.inj h, hes', List.map_cons]

/-- The invariant of the breadth-first loop: the queue splits into the
frontier `q1` at depth `d` and the next level `q2` at depth `d + 1`; every
visited entry was fully expanded without hitting the target; all sequences
shorter than the frontier are in `visited`, frontier-length sequences are in
`visited` or still queued, and children of expanded frontier entries are
queued at the next level. -/
structure Inv (light : Light) (buttons : List Button) (d : ℕ)
    (q1 q2 visited : List Entry) : Prop where
  depth_q1 : ∀ e ∈ q1, e.presses = d
  depth_q2 : ∀ e ∈ q2, e.presses = d + 1
  nohit : ∀ ev ∈ visited, ∀ b ∈ buttons, press_button ev.light b ≠ light
  vdepth : ∀ ev ∈ visited, ev.presses ≤ d
  sound : ∀ e ∈ q1 ++ q2, EntrySound light buttons e
  past : ∀ s, ValidSeq buttons s → s ≠ [] → s.length < d →
    entryOf light s ∈ visited
  frontF : ∀ s, ValidSeq buttons s → s ≠ [] → s.length = d →
    entryOf light s ∈ visited ∨ entryOf light s ∈ q1
  frontG : ∀ ev ∈ visited, ev.presses = d → ∀ b ∈ buttons,
    (⟨press_button ev.light b, b, d + 1⟩ : Entry) ∈ q2
  rootv : 1 ≤ d → buttons = [] ∨
    ∃ ev ∈ visited, ev.presses = 0 ∧ ev.light = allOff light
  root0 : d = 0 → ∀ b ∈ buttons,
    (⟨allOff light, b, 0⟩ : Entry) ∈ visited ∨
      (⟨allOff light, b, 0⟩ : Entry) ∈ q1 ++ q2

theorem Inv.initial (light : Light) (buttons : List Button) :
    Inv light buttons 0 (buttons.map fun b => ⟨allOff light, b, 0⟩) [] [] := by
  refine ⟨?_, ?_, ?_, ?_, ?_, ?_, ?_, ?_, ?_, ?_⟩
  · intro e he
    obtain ⟨b, -, rfl⟩ := List.mem_map.mp he
    rfl
  · intro e he
    simp at he
  · intro ev hev
    simp at hev
  · intro ev hev
    simp at hev
  · intro e he
    rw [List.append_nil] at he
    obtain ⟨b, -, rfl⟩ := List.mem_map.mp he
    exact ⟨[], fun b hb => absurd hb (List.not_mem_nil b), rfl, rfl⟩
  · intro s _ _ hlen
    omega
  · intro s _ hne hlen
    exact absurd (List.length_eq_zero.mp hlen) hne
  · intro ev hev
    simp at hev
  · intro h
    omega
  · intro _ b hb
    right
    rw [List.append_nil]
    exact List.mem_map.mpr ⟨b, hb, rfl⟩

theorem entryOf_concat (light : Light) (s : List Button) (b : Button) :
    entryOf light (s ++ [b]) =
      ⟨press_button (applySeq (allOff light) s) b, b, s.length + 1⟩ := by
  unfold entryOf
  rw [applySeq_concat, List.getLastD_concat]
  simp

theorem Inv.skip {light : Light} {buttons : List Button} {d : ℕ} {e : Entry}
    {q1t q2 visited : List Entry}
    (h : Inv light buttons d (e :: q1t) q2 visited) (hev : e ∈ visited) :
    Inv light buttons d q1t q2 visited := by
  refine ⟨?_, h.depth_q2, h.nohit, h.vdepth, ?_, h.past, ?_, h.frontG,
    h.rootv, ?_⟩
  · exact fun x hx => h.depth_q1 x (List.mem_cons_of_mem _ hx)
  · intro x hx
    apply h.sound
    rcases List.mem_append.mp hx with h1 | h1
    · exact List.mem_append_left _ (List.mem_cons_of_mem _ h1)
    · exact List.mem_append_right _ h1
  · intro s hv hne hlen
    rcases h.frontF s hv hne hlen with h1 | h1
    · exact Or.inl h1
    · rcases List.mem_cons.mp h1 with h2 | h2
      · exact Or.inl (h2 ▸ hev)
      · exact Or.inr h2
  · intro hd b hb
    rcases h.root0 hd b hb with h1 | h1
    · exact Or.inl h1
    · rcases List.mem_append.mp h1 with h2 | h2
      · rcases List.mem_cons.mp h2 with h3 | h3
        · exact Or.inl (h3 ▸ hev)
        · exact Or.inr (List.mem_append_left _ h3)
      · exact Or.inr (List.mem_append_right _ h2)

theorem Inv.relabel {light : Light} {buttons : List Button} {d : ℕ}
    {q2 visited : List Entry} (h : Inv light buttons d [] q2 visited) :
    Inv light buttons (d + 1) q2 [] visited := by
  have hpastd : ∀ s, ValidSeq buttons s → s ≠ [] → s.length = d →
      entryOf light s ∈ visited := by
    intro s hv hne hlen
    rcases h.frontF s hv hne hlen with h1 | h1
    · exact h1
    · exact absurd h1 (List.not_mem_nil _)
  have hroot : ∀ b ∈ buttons, d = 0 →
      (⟨allOff light, b, 0⟩ : Entry) ∈ visited := by
    intro b hb hd
    rcases h.root0 hd b hb with h1 | h1
    · exact h1
    · rw [List.nil_append] at h1
      have h2 := h.depth_q2 _ h1
      simp at h2
  refine ⟨h.depth_q2, ?_, h.nohit, ?_, ?_, ?_, ?_, ?_, ?_, ?_⟩
  · intro e he
    simp at he
  · intro ev hev
    exact Nat.le_succ_of_le (h.vdepth ev hev)
  · intro e he
    apply h.sound
    rw [List.nil_append]
    rw [List.append_nil] at he
    exact he
  · intro s hv hne hlen
    rcases Nat.lt_succ_iff_lt_or_eq.mp hlen with h1 | h1
    · exact h.past s hv hne h1
    · exact hpastd s hv hne h1
  · intro s hv hne hlen
    right
    rcases List.eq_nil_or_concat s with rfl | ⟨s', b, rfl⟩
    · exact absurd rfl hne
    · rw [List.concat_eq_append] at hv hlen ⊢
      have hb : b ∈ buttons := hv b (List.mem_append_right _ (List.mem_singleton.mpr rfl))
      have hvs' : ValidSeq buttons s' := fun x hx => hv x (List.mem_append_left _ hx)
      have hlen' : s'.length = d := by
        rw [List.length_append] at hlen
        simpa using hlen
      rw [entryOf_concat, hlen']
      cases s' with
      | nil =>
        have hd0 : d = 0 := hlen'.symm
        have hrootb := hroot b hb hd0
        have hG := h.frontG _ hrootb (hd0 ▸ rfl) b hb
        exact hG
      | cons c s'' =>
        have hmem := hpastd _ hvs' (List.cons_ne_nil c s'') hlen'
        have hG := h.frontG _ hmem (by simp [entryOf, hlen']) b hb
        have hlight : (entryOf light (c :: s'')).light =
            applySeq (allOff light) (c :: s'') := rfl
        rw [hlight] at hG
        exact hG
  · intro ev hev hpres
    have := h.vdepth ev hev
    omega
  · intro _
    cases hbtn : buttons with
    | nil => exact Or.inl rfl
    | cons b0 bs =>
      right
      by_cases hd1 : 1 ≤ d
      · rcases h.rootv hd1 with h1 | h1
        · rw [hbtn] at h1
          exact absurd h1 (List.cons_ne_nil b0 bs)
        · exact h1
      · have hd0 : d = 0 := by omega
        have hr := hroot b0 (by rw [hbtn]; exact List.mem_cons_self _ _) hd0
        exact ⟨_, hr, rfl, rfl⟩
  · intro hd
    omega

theorem Inv.expand {light : Light} {buttons : List Button} {d : ℕ} {e : Entry}
    {q1t q2 visited es : List Entry}
    (h : Inv light buttons d (e :: q1t) q2 visited)
    (hexp : expandButtons light e.light e.presses buttons = Sum.inr es) :
    Inv light buttons d q1t (q2 ++ es) (e :: visited) := by
  obtain ⟨hne, hes⟩ := expandButtons_inr hexp
  have hd : e.presses = d := h.depth_q1 e (List.mem_cons_self _ _)
  have hesmem : ∀ x ∈ es, ∃ b ∈ buttons,
      x = ⟨press_button e.light b, b, e.presses + 1⟩ := by
    intro x hx
    rw [hes] at hx
    obtain ⟨b, hb, rfl⟩ := List.mem_map.mp hx
    exact ⟨b, hb, rfl⟩
  refine ⟨?_, ?_, ?_, ?_, ?_, ?_, ?_, ?_, ?_, ?_⟩
  · exact fun x hx => h.depth_q1 x (List.mem_cons_of_mem _ hx)
  · intro x hx
    rcases List.mem_append.mp hx with h1 | h1
    · exact h.depth_q2 x h1
    · obtain ⟨b, hb, rfl⟩ := hesmem x h1
      simp [hd]
  · intro ev hev b hb
    rcases List.mem_cons.mp hev with rfl | h1
    · exact hne b hb
    · exact h.nohit ev h1 b hb
  · intro ev hev
    rcases List.mem_cons.mp hev with rfl | h1
    · exact hd.le
    · exact h.vdepth ev h1
  · intro x hx
    rcases List.mem_append.mp hx with h1 | h1
    · exact h.sound x (List.mem_append_left _ (List.mem_cons_of_mem _ h1))
    · rcases List.mem_append.mp h1 with h2 | h2
      · exact h.sound x (List.mem_append_right _ h2)
      · obtain ⟨b, hb, rfl⟩ := hesmem x h2
        obtain ⟨seq, hsv, hslen, hsend⟩ :=
          h.sound e (List.mem_append_left _ (List.mem_cons_self _ _))
        refine ⟨seq ++ [b], ?_, by simp [hslen], ?_⟩
        · intro y hy
          rcases List.mem_append.mp hy with h3 | h3
          · exact hsv y h3
          · rw [List.mem_singleton.mp h3]
            exact hb
        · rw [applySeq_concat, hsend]
  · intro s hv hne2 hlen
    exact List.mem_cons_of_mem _ (h.past s hv hne2 hlen)
  · intro s hv hne2 hlen
    rcases h.frontF s hv hne2 hlen with h1 | h1
    · exact Or.inl (List.mem_cons_of_mem _ h1)
    · rcases List.mem_cons.mp h1 with h2 | h2
      · exact Or.inl (h2 ▸ List.mem_cons_self _ _)
      · exact Or.inr h2
  · intro ev hev hpres b hb
    rcases List.mem_cons.mp hev with rfl | h1
    · apply List.mem_append_right
      rw [hes]
      refine List.mem_map.mpr ⟨b, hb, ?_⟩
      rw [hd]
    · exact List.mem_append_left _ (h.frontG ev h1 hpres b hb)
  · intro hd1
    rcases h.rootv hd1 with h1 | h1
    · exact Or.inl h1
    · obtain ⟨ev, hev, h2, h3⟩ := h1
      exact Or.inr ⟨ev, List.mem_cons_of_mem _ hev, h2, h3⟩
  · intro hd0 b hb
    rcases h.root0 hd0 b hb with h1 | h1
    · exact Or.inl (List.mem_cons_of_mem _ h1)
    · rcases List.mem_append.mp h1 with h2 | h2
      · rcases List.mem_cons.mp h2 with h3 | h3
        · exact Or.inl (h3 ▸ List.mem_cons_self _ _)
        · exact Or.inr (List.mem_append_left _ h3)
      · exact Or.inr (List.mem_append_right _ (List.mem_append_left _ h2))

/-- Partial correctness of the breadth-first loop: a returned press count is
realised by a valid press sequence and no shorter nonempty sequence reaches
the target. -/
theorem bfsLoop_min (light : Light) (buttons : List Button) :
    ∀ (fuel d : ℕ) (q1 q2 visited : List Entry) (n : ℕ),
      Inv light buttons d q1 q2 visited →
      bfsLoop light buttons fuel (q1 ++ q2) visited = some n →
      1 ≤ n ∧ ReachIn light buttons n ∧
        ∀ m, 1 ≤ m → m < n → ¬ ReachIn light buttons m := by
  intro fuel
  induction fuel with
  | zero =>
    intro d q1 q2 visited n _ h
    simp [bfsLoop] at h
  | succ fuel ih =>
    intro d q1 q2 visited n hInv hrun
    suffices H : ∀ (d : ℕ) (e : Entry) (q1t q2 visited : List Entry),
        Inv light buttons d (e :: q1t) q2 visited →
        bfsLoop light buttons (fuel + 1) ((e :: q1t) ++ q2) visited = some n →
        1 ≤ n ∧ ReachIn light buttons n ∧
          ∀ m, 1 ≤ m → m < n → ¬ ReachIn light buttons m by
      cases q1 with
      | cons e q1t => exact H d e q1t q2 visited hInv hrun
      | nil =>
        cases q2 with
        | nil => simp [bfsLoop] at hrun
        | cons e q2t =>
          have hrun2 : bfsLoop light buttons (fuel + 1)
              ((e :: q2t) ++ []) visited = some n := by
            simpa using hrun
          exact H (d + 1) e q2t [] visited hInv.relabel hrun2
    intro d e q1t q2 visited hInv hrun
    have hstep : bfsLoop light buttons (fuel + 1) ((e :: q1t) ++ q2) visited =
        (if e ∈ visited then bfsLoop light buttons fuel (q1t ++ q2) visited
         else
           match expandButtons light e.light e.presses buttons with
           | Sum.inl n2 => some n2
           | Sum.inr es =>
             bfsLoop light buttons fuel ((q1t ++ q2) ++ es) (e :: visited)) := rfl
    rw [hstep] at hrun
    by_cases hev : e ∈ visited
    · rw [if_pos hev] at hrun
      exact ih d q1t q2 visited n (hInv.skip hev) hrun
    · rw [if_neg hev] at hrun
      cases hexp : expandButtons light e.light e.presses buttons with
      | inr es =>
        rw [hexp] at hrun
        have hrun2 : bfsLoop light buttons fuel
            (q1t ++ (q2 ++ es)) (e :: visited) = some n := by
          rw [← List.append_assoc]
          exact hrun
        exact ih d q1t (q2 ++ es) (e :: visited) n (hInv.expand hexp) hrun2
      | inl n2 =>
        rw [hexp] at hrun
        obtain ⟨hn2, b, hbmem, hbhit⟩ := expandButtons_inl hexp
        have hnval : n = e.presses + 1 :=
          (Option.some_inj.mp hrun).symm.trans hn2
        have hd : e.presses = d := hInv.depth_q1 e (List.mem_cons_self _ _)
        refine ⟨by omega, ?_, ?_⟩
        · obtain ⟨seq, hsv, hslen, hsend⟩ :=
            hInv.sound e (List.mem_append_left _ (List.mem_cons_self _ _))
          refine ⟨seq ++ [b], ?_, ?_, by rw [applySeq_concat, hsend, hbhit]⟩
          · intro x hx
            rcases List.mem_append.mp hx with h1 | h1
            · exact hsv x h1
            · rw [List.mem_singleton.mp h1]
              exact hbmem
          · rw [List.length_append, hslen]
            simp [hnval]
        · intro m hm1 hm2 hreach
          obtain ⟨s, hsv, hslen, hsend⟩ := hreach
          have hmd : m ≤ d := by omega
          rcases List.eq_nil_or_concat s with rfl | ⟨s2, b2, rfl⟩
          · simp at hslen
            omega
          · rw [List.concat_eq_append] at hsv hslen hsend
            have hb2 : b2 ∈ buttons :=
              hsv b2 (List.mem_append_right _ (List.mem_singleton.mpr rfl))
            rw [applySeq_concat] at hsend
            cases s2 with
            | nil =>
              have hd1 : 1 ≤ d := by
                rw [List.length_append] at hslen
                simp at hslen
                omega
              rcases hInv.rootv hd1 with hbtn | ⟨ev, hevm, hev0, hevl⟩
              · rw [hbtn] at hb2
                exact absurd hb2 (List.not_mem_nil b2)
              · apply hInv.nohit ev hevm b2 hb2
                rw [hevl]
                simpa [applySeq] using hsend
            | cons c s3 =>
              have hlt : (c :: s3).length < d := by
                rw [List.length_append] at hslen
                simp only [List.length_singleton, List.length_cons] at hslen ⊢
                omega
              have hvs2 : ValidSeq buttons (c :: s3) :=
                fun x hx => hsv x (List.mem_append_left _ hx)
              have hmem := hInv.past (c :: s3) hvs2 (List.cons_ne_nil c s3) hlt
              apply hInv.nohit _ hmem b2 hb2
              rw [show (entryOf light (c :: s3)).light =
                applySeq (allOff light) (c :: s3) from rfl]
              exact hsend

/-- C1 (amended): on every well-formed parsed step, whenever the
breadth-first search of `p1` terminates with a press count `n`, then `n` is
the minimum length of a NONEMPTY press sequence turning the all-off pattern
into the target: such a sequence of length `n` exists and no sequence of
length `1 ≤ m < n` reaches the target.  (For targets other than the all-off
pattern this is the plain minimum; states are deduplicated by the
`(light pattern, presses, last button)` triple, which the invariant proof
relies on only through the fact that a skipped entry equals an already
expanded one.) -/
theorem claim_C1 (light : Light) (buttons : List Button) (fuel n : ℕ)
    (_hwf : ∀ b ∈ buttons, ∀ i ∈ b, i < light.length)
    (h : p1_single light buttons fuel = some n) :
    1 ≤ n ∧ ReachIn light buttons n ∧
      ∀ m, 1 ≤ m → m < n → ¬ ReachIn light buttons m := by
  unfold p1_single at h
  have h2 : bfsLoop light buttons fuel
      ((buttons.map fun b => ⟨allOff light, b, 0⟩) ++ []) [] = some n := by
    rwa [List.append_nil]
  exact bfsLoop_min light buttons fuel 0 _ [] [] n (Inv.initial light buttons) h2

/-- Counterexample for C1 as stated: when the target pattern is the all-off
pattern itself, zero presses already reach it, yet the search never compares
the initial state with the target and returns 2 on a one-light step with a
single all-toggling button. -/
theorem claim_C1_counterexample :
    p1_single ['.'] [[0]] 20 = some 2 ∧ ReachIn ['.'] [[0]] 0 ∧ (0 : ℕ) < 2 :=
  ⟨by decide, ⟨[], fun b hb => absurd hb (List.not_mem_nil b), rfl, rfl⟩,
    by norm_num⟩

/-- Witness for C1 (amended): on the one-light step with target `#`, the
search returns 1, which is realised and minimal. -/
theorem claim_C1_witness :
    1 ≤ 1 ∧ ReachIn ['#'] [[0]] 1 ∧
      ∀ m, 1 ≤ m → m < 1 → ¬ ReachIn ['#'] [[0]] m :=
  claim_C1 ['#'] [[0]] 10 1 (by decide) (by decide)

end Day10
